import Mathlib

/-
  Verification of the scoutfs ioctl query layer (inodes-since scanner,
  inode-path reconstruction, reverse xattr scan) against its
  natural-language specification.

  The ioctl functions are translated from the source file
  (scoutfs_ioc_inodes_since, copy_to_ptr, scoutfs_ioc_inode_paths,
  scoutfs_ioc_find_xattr).  External collaborators whose code is not part
  of the repository snapshot (the btree store, the key helpers of key.h,
  the directory back-reference iterator) are modelled from the spec, as
  marked on each such definition.  Machine integers are Nat with explicit
  `% 2^64` at the one place where u64 overflow can occur (the cursor
  advance `key.inode = iseq.ino + 1`).  Boundary copies (copy_to_user /
  put_user) are modelled by a `copyOk` oracle indexed by the number of
  records already transferred, so that transfer failures are expressible.
-/

namespace Scoutfs

/-- Size of the u64 value space; u64 arithmetic wraps modulo this. -/
def U64 : Nat := 2 ^ 64

/-- INT_MAX of the kernel's int type. -/
def INT_MAX : Nat := 2 ^ 31 - 1

/-- Model of `struct scoutfs_key`: the ordered triple
(inode = primary u64, type tag u8, offset = secondary u64). -/
structure Key where
  ino : Nat
  typ : Nat
  off : Nat
deriving DecidableEq

/-- One record of the versioned index store: a key plus the sequence stamp
attached to it by the (external) write path. -/
structure Rec where
  key : Key
  seq : Nat
deriving DecidableEq

/-- The versioned ordered key-value store is modelled as a finite list of
records (a fixed read snapshot for the duration of one call). -/
abbrev Store := List Rec

/-- Strict lexicographic order on keys, the sort order of the store. -/
def keyLt (a b : Key) : Prop :=
  a.ino < b.ino ∨ (a.ino = b.ino ∧ (a.typ < b.typ ∨ (a.typ = b.typ ∧ a.off < b.off)))

/-- Lexicographic order (inclusive) on keys. -/
def keyLe (a b : Key) : Prop :=
  a.ino < b.ino ∨ (a.ino = b.ino ∧ (a.typ < b.typ ∨ (a.typ = b.typ ∧ a.off ≤ b.off)))

instance (a b : Key) : Decidable (keyLt a b) := by
  unfold keyLt; exact inferInstance

instance (a b : Key) : Decidable (keyLe a b) := by
  unfold keyLe; exact inferInstance

/-- Modelled from the spec (scoutfs_set_key of key.h is not in the
snapshot): build a key from its three fields. -/
def scoutfs_set_key (ino typ off : Nat) : Key := ⟨ino, typ, off⟩

/-- Modelled from the spec (key.h): decode the primary field. -/
def scoutfs_key_inode (k : Key) : Nat := k.ino

/-- Modelled from the spec (key.h): decode the secondary field. -/
def scoutfs_key_offset (k : Key) : Nat := k.off

/-- Modelled from the spec (key.h): `successor(Key)`, the smallest key
strictly greater, with carry across the fixed-width fields. -/
def scoutfs_inc_key (k : Key) : Key :=
  if k.off + 1 < U64 then ⟨k.ino, k.typ, k.off + 1⟩
  else if k.typ + 1 < 256 then ⟨k.ino, k.typ + 1, 0⟩
  else ⟨(k.ino + 1) % U64, 0, 0⟩

/-- Does record `r` lie in the inclusive key range `[start, stop]` and
carry a sequence stamp at or above `floor`? -/
def qualb (start stop : Key) (floor : Nat) (r : Rec) : Bool :=
  decide (keyLe start r.key) && decide (keyLe r.key stop) && decide (floor ≤ r.seq)

/-- Record with the smallest key in a list (first one on ties). -/
def findMinRec : List Rec → Option Rec
  | [] => none
  | r :: rs =>
    match findMinRec rs with
    | none => some r
    | some m => if keyLt m.key r.key then some m else some r

/-- Modelled from the spec (btree.c is not in the snapshot):
`range_scan_since(start_key, end_key, seq_floor)` returns the record with
the smallest key in `[start, stop]` whose sequence stamp is `>= floor`,
or nothing when the range is exhausted. -/
def scoutfs_btree_since (store : Store) (start stop : Key) (floor : Nat) :
    Option (Key × Nat) :=
  (findMinRec (store.filter (qualb start stop floor))).map (fun r => (r.key, r.seq))

/-- Modelled from the spec (btree.c): `range_scan(start_key, end_key)`,
the next key in the inclusive range with no sequence filtering. -/
def scoutfs_btree_next (store : Store) (start stop : Key) : Option Key :=
  (scoutfs_btree_since store start stop 0).map Prod.fst

/-- sizeof(struct scoutfs_ioctl_ino_seq): two u64 fields. -/
def ISEQ_SIZE : Nat := 16

/-- The request of a change-since query (struct scoutfs_ioctl_inodes_since,
already read across the privilege boundary). -/
structure SinceArgs where
  first_ino : Nat
  last_ino : Nat
  seq : Nat
  buf_len : Nat

/-- Result of a change-since call: the return value, the records landed in
the user buffer, and the trace of cursor keys passed to the store. -/
structure SinceRes where
  ret : Int
  out : List (Nat × Nat)
  queries : List Key
deriving DecidableEq

/-- The scan loop of scoutfs_ioc_inodes_since.  `s` counts how many more
records fit in the destination buffer (`buf_len / 16` at entry; the C
break `bytes + sizeof(iseq) > args.buf_len` after a write is exactly this
count reaching zero).  Each iteration queries the store from the cursor,
copies the match out (`copyOk 0` models that copy_to_user succeeding), and
advances the cursor by overwriting only the inode field of the found key
with `found + 1` in u64 arithmetic, exactly as `key.inode =
cpu_to_le64(iseq.ino + 1)` does.  `ret` is the pre-fixup error value at
the break; the `if (bytes) ret = bytes` fixup happens in the caller. -/
def inodesSinceLoop (store : Store) (lastK : Key) (floor : Nat) :
    (Nat → Bool) → Key → Nat → SinceRes
  | _, _, 0 => ⟨0, [], []⟩
  | copyOk, c, s + 1 =>
    match scoutfs_btree_since store c lastK floor with
    | none => ⟨0, [], [c]⟩
    | some (k, sq) =>
      if copyOk 0 then
        let r := inodesSinceLoop store lastK floor (fun n => copyOk (n + 1))
            ⟨(k.ino + 1) % U64, k.typ, k.off⟩ s
        ⟨r.ret, (k.ino, sq) :: r.out, c :: r.queries⟩
      else ⟨-14, [], [c]⟩

/-- scoutfs_ioc_inodes_since: validate the buffer length, run the scan
loop over `[(first_ino, type, 0), (last_ino, type, 0)]`, and return the
byte count written when it is nonzero, the break status otherwise. -/
def scoutfs_ioc_inodes_since (store : Store) (copyOk : Nat → Bool)
    (args : SinceArgs) (typ : Nat) : SinceRes :=
  if args.buf_len < ISEQ_SIZE ∨ args.buf_len > INT_MAX then ⟨-22, [], []⟩
  else
    let r := inodesSinceLoop store (scoutfs_set_key args.last_ino typ 0) args.seq
        copyOk (scoutfs_set_key args.first_ino typ 0) (args.buf_len / ISEQ_SIZE)
    ⟨if r.out.isEmpty then r.ret else ((ISEQ_SIZE * r.out.length : Nat) : Int),
      r.out, r.queries⟩

/-- The ideal emission sequence of the change-since scan, fuel variant:
from cursor inode `c`, repeatedly take the smallest qualifying record in
`[(c, typ, 0), (last_ino, typ, 0)]` and restart one past its primary.
This is the sequence the spec describes (cursor reset to type/offset
`(typ, 0)` and no u64 wrap). -/
def sinceEmitF (store : Store) (typ floor last_ino : Nat) : Nat → Nat → List (Nat × Nat)
  | 0, _ => []
  | f + 1, c =>
    match scoutfs_btree_since store ⟨c, typ, 0⟩ ⟨last_ino, typ, 0⟩ floor with
    | none => []
    | some (k, sq) => (k.ino, sq) :: sinceEmitF store typ floor last_ino f (k.ino + 1)

/-- The ideal emission sequence with sufficient fuel (the cursor strictly
increases and is bounded by `last_ino`, so `last_ino + 1 - c` steps always
suffice). -/
def sinceEmitAll (store : Store) (typ floor last_ino c : Nat) : List (Nat × Nat) :=
  sinceEmitF store typ floor last_ino (last_ino + 1 - c) c

/-- The request of a reverse-attribute query (struct
scoutfs_ioctl_find_xattr, already read across the boundary); `str` models
the userspace bytes at `str_ptr`. -/
structure XattrArgs where
  str : List Nat
  str_len : Nat
  first_ino : Nat
  last_ino : Nat
  ino_count : Nat

/-- Result of a reverse-attribute call: return value and inode numbers
landed in the user buffer. -/
structure XattrRes where
  ret : Int
  out : List Nat
deriving DecidableEq

/-- Modelled from the spec (format.h): type tag of the xattr name-hash
index (value arbitrary; only distinctness matters). -/
def SCOUTFS_XATTR_NAME_HASH_KEY : Nat := 200

/-- Modelled from the spec (format.h): type tag of the xattr value-hash
index. -/
def SCOUTFS_XATTR_VAL_HASH_KEY : Nat := 201

/-- The scan loop of scoutfs_ioc_find_xattr: while fewer than `ino_count`
inodes were copied, fetch the next key in `[cursor, last]`, report its
offset field as a candidate inode (`copyOk 0` models put_user), and
advance the cursor to the key's immediate successor. -/
def findXattrLoop (store : Store) (lastK : Key) :
    (Nat → Bool) → Key → Nat → XattrRes
  | _, _, 0 => ⟨0, []⟩
  | copyOk, c, rem + 1 =>
    match scoutfs_btree_next store c lastK with
    | none => ⟨0, []⟩
    | some k =>
      if copyOk 0 then
        let r := findXattrLoop store lastK (fun n => copyOk (n + 1))
            (scoutfs_inc_key k) rem
        ⟨r.ret, scoutfs_key_offset k :: r.out⟩
      else ⟨-14, []⟩

/-- scoutfs_ioc_find_xattr.  `hashFn` models scoutfs_name_hash (name.c is
not in the snapshot), `maxXattrLen` models SCOUTFS_MAX_XATTR_LEN and
`maskBits` the reserved low-order SCOUTFS_XATTR_NAME_HASH_MASK, both
modelled from the spec since format.h is missing; `allocOk` and
`strCopyOk` model the kmalloc and the copy_from_user of the search
string.  Validation happens before any allocation, copy or store access;
`copied ?: ret` is the final `if out nonempty then its length else the
break status`. -/
def scoutfs_ioc_find_xattr (store : Store) (hashFn : List Nat → Nat)
    (maxXattrLen maskBits : Nat) (allocOk strCopyOk : Bool)
    (copyOk : Nat → Bool) (args : XattrArgs) (find_name : Bool) : XattrRes :=
  if args.str_len > maxXattrLen ∨ args.ino_count > INT_MAX then ⟨-22, []⟩
  else if args.first_ino > args.last_ino then ⟨-22, []⟩
  else if args.ino_count = 0 then ⟨0, []⟩
  else if ¬allocOk then ⟨-12, []⟩
  else if ¬strCopyOk then ⟨-14, []⟩
  else
    let h0 := hashFn (args.str.take args.str_len)
    let h := if find_name then h0 / 2 ^ maskBits * 2 ^ maskBits else h0
    let typ := if find_name then SCOUTFS_XATTR_NAME_HASH_KEY
        else SCOUTFS_XATTR_VAL_HASH_KEY
    let r := findXattrLoop store (scoutfs_set_key h typ args.last_ino) copyOk
        (scoutfs_set_key h typ args.first_ino) args.ino_count
    ⟨if r.out.isEmpty then r.ret else (r.out.length : Int), r.out⟩

/-- Separator byte written between path components. -/
def SLASH : Nat := 47

/-- Terminator byte written after each path and once more at the end. -/
def NUL : Nat := 0

/-- copy_to_ptr: all-or-nothing append of `src` into the destination
buffer with `space` bytes remaining; overflow is signalled by the
distinct negative value -EOVERFLOW without any partial write, success
returns the reduced remaining space.  (The copy itself is modelled as
succeeding; no claim concerns an EFAULT of this ioctl.) -/
def copy_to_ptr (buf : List Nat) (src : List Nat) (space : Int) :
    List Nat × Int :=
  if (src.length : Int) > space then (buf, -75)
  else (buf ++ src, space - src.length)

/-- The inner loop of scoutfs_ioc_inode_paths over one path's component
list: write each component's name, a separator when more components
remain, and stop on the first failure.  The third result is the list of
still-held (not yet consumed/freed) component nodes at that point: the
current node is released only after its name was copied out. -/
def writeComps : List (List Nat) → List Nat → Int →
    List Nat × Int × List (List Nat)
  | [], buf, len => (buf, len, [])
  | c :: rest, buf, len =>
    let p1 := copy_to_ptr buf c len
    if p1.2 < 0 then (p1.1, p1.2, c :: rest)
    else
      match rest with
      | [] => (p1.1, p1.2, [])
      | r1 :: rs =>
        let p2 := copy_to_ptr p1.1 [SLASH] p1.2
        if p2.2 < 0 then (p2.1, p2.2, r1 :: rs)
        else writeComps (r1 :: rs) p2.1 p2.2

/-- The outer loop of scoutfs_ioc_inode_paths: one iteration per path
delivered by the directory back-reference iterator (modelled from the
spec as the list `paths`, dir.c not being in the snapshot), each followed
by a terminator. -/
def pathsLoop : List (List (List Nat)) → List Nat → Int →
    List Nat × Int × List (List Nat)
  | [], buf, len => (buf, len, [])
  | p :: rest, buf, len =>
    let w := writeComps p buf len
    if w.2.1 < 0 then w
    else
      let p2 := copy_to_ptr w.1 [NUL] w.2.1
      if p2.2 < 0 then (p2.1, p2.2, [])
      else pathsLoop rest p2.1 p2.2

/-- Modelled from the spec (dir.c): scoutfs_dir_free_path releases every
node of the component list. -/
def scoutfs_dir_free_path (_l : List (List Nat)) : List (List Nat) := []

/-- Result of a path-reconstruction call: return value, bytes landed in
the user buffer, and the component nodes still held after the final
release (the leak set). -/
structure PathsRes where
  ret : Int
  buf : List Nat
  leaked : List (List Nat)
deriving DecidableEq

/-- scoutfs_ioc_inode_paths: capability check, buffer-length validation,
the path loop, and the final empty terminator; any negative remaining
length aborts the whole call with that error, and the held component list
is released at `out`. -/
def scoutfs_ioc_inode_paths (paths : List (List (List Nat)))
    (capable : Bool) (buf_len : Nat) : PathsRes :=
  if ¬capable then ⟨-1, [], []⟩
  else if buf_len > INT_MAX then ⟨-22, [], []⟩
  else
    let w := pathsLoop paths [] (buf_len : Int)
    if w.2.1 < 0 then ⟨w.2.1, w.1, scoutfs_dir_free_path w.2.2⟩
    else
      let p2 := copy_to_ptr w.1 [NUL] w.2.1
      ⟨if p2.2 < 0 then p2.2 else 0, p2.1, scoutfs_dir_free_path []⟩

/-- Components of one path joined by the separator, no trailing
separator (the spec's serialization of a single path body). -/
def joinSep : List (List Nat) → List Nat
  | [] => []
  | [c] => c
  | c :: r1 :: rs => c ++ SLASH :: joinSep (r1 :: rs)

/-- Written from the spec's words, for comparison with the code: each
path's components joined by a single separator, one terminator after each
path, and one additional empty terminator after the last path. -/
def serializePaths (paths : List (List (List Nat))) : List Nat :=
  (paths.map (fun p => joinSep p ++ [NUL])).flatten ++ [NUL]

/-! ### Order and store lemmas -/

theorem keyLe_refl (a : Key) : keyLe a a := by
  unfold keyLe; omega

theorem keyLe_of_not_keyLt {a b : Key} (h : ¬ keyLt a b) : keyLe b a := by
  unfold keyLt at h; unfold keyLe; omega

theorem keyLe_ino_le {a b : Key} (h : keyLe a b) : a.ino ≤ b.ino := by
  unfold keyLe at h; omega

theorem keyLt_ino_cases {a b : Key} (h : ¬ keyLt a b) (h2 : a.ino = b.ino)
    (h3 : a.typ = b.typ) : b.off ≤ a.off := by
  unfold keyLt at h; omega

theorem findMinRec_mem : ∀ {l : List Rec} {m : Rec}, findMinRec l = some m → m ∈ l := by
  intro l
  induction l with
  | nil => intro m h; simp [findMinRec] at h
  | cons r rs ih =>
    intro m h
    simp only [findMinRec] at h
    cases hm : findMinRec rs with
    | none => rw [hm] at h; simp at h; simp [h]
    | some m0 =>
      rw [hm] at h
      by_cases hlt : keyLt m0.key r.key
      · simp [hlt] at h; subst h; exact List.mem_cons_of_mem _ (ih hm)
      · simp [hlt] at h; simp [h]

theorem findMinRec_le : ∀ {l : List Rec} {m : Rec}, findMinRec l = some m →
    ∀ r ∈ l, keyLe m.key r.key := by
  intro l
  induction l with
  | nil => intro m h; simp [findMinRec] at h
  | cons r rs ih =>
    intro m h x hx
    simp only [findMinRec] at h
    cases hm : findMinRec rs with
    | none =>
      rw [hm] at h; simp at h; subst h
      rcases List.mem_cons.mp hx with hx | hx
      · subst hx; exact keyLe_refl _
      · cases rs with
        | nil => simp at hx
        | cons a as => simp [findMinRec] at hm; cases hm₂ : findMinRec as <;>
            rw [hm₂] at hm <;> simp at hm <;> split at hm <;> simp at hm
    | some m0 =>
      rw [hm] at h
      by_cases hlt : keyLt m0.key r.key
      · simp [hlt] at h; subst h
        rcases List.mem_cons.mp hx with hx | hx
        · subst hx; unfold keyLt at hlt; unfold keyLe; omega
        · exact ih hm x hx
      · simp [hlt] at h; subst h
        rcases List.mem_cons.mp hx with hx | hx
        · subst hx; exact keyLe_refl _
        · have := ih hm x hx
          have h2 := keyLe_of_not_keyLt hlt
          unfold keyLe at *; omega

theorem findMinRec_none : ∀ {l : List Rec}, findMinRec l = none → l = [] := by
  intro l
  cases l with
  | nil => intro; rfl
  | cons r rs =>
    intro h
    simp only [findMinRec] at h
    cases hm : findMinRec rs <;> rw [hm] at h <;> simp at h
    split at h <;> simp at h

theorem qualb_eq_true {start stop : Key} {floor : Nat} {r : Rec} :
    qualb start stop floor r = true ↔
      keyLe start r.key ∧ keyLe r.key stop ∧ floor ≤ r.seq := by
  simp [qualb, Bool.and_eq_true, decide_eq_true_iff, and_assoc]

theorem bs_some {store : Store} {a b : Key} {f : Nat} {k : Key} {sq : Nat}
    (h : scoutfs_btree_since store a b f = some (k, sq)) :
    (∃ r ∈ store, r.key = k ∧ r.seq = sq) ∧ keyLe a k ∧ keyLe k b ∧ f ≤ sq := by
  unfold scoutfs_btree_since at h
  cases hm : findMinRec (store.filter (qualb a b f)) with
  | none => rw [hm] at h; simp at h
  | some m =>
    rw [hm] at h; simp at h
    obtain ⟨hk, hs⟩ := h
    have hmem := findMinRec_mem hm
    rw [List.mem_filter] at hmem
    obtain ⟨hm1, hm2⟩ := hmem
    rw [qualb_eq_true] at hm2
    subst hk hs
    exact ⟨⟨m, hm1, rfl, rfl⟩, hm2.1, hm2.2.1, hm2.2.2⟩

theorem bs_min {store : Store} {a b : Key} {f : Nat} {k : Key} {sq : Nat}
    (h : scoutfs_btree_since store a b f = some (k, sq)) :
    ∀ r ∈ store, keyLe a r.key → keyLe r.key b → f ≤ r.seq → keyLe k r.key := by
  intro r hr h1 h2 h3
  unfold scoutfs_btree_since at h
  cases hm : findMinRec (store.filter (qualb a b f)) with
  | none => rw [hm] at h; simp at h
  | some m =>
    rw [hm] at h; simp at h
    have : r ∈ store.filter (qualb a b f) := by
      rw [List.mem_filter, qualb_eq_true]; exact ⟨hr, h1, h2, h3⟩
    have := findMinRec_le hm r this
    rw [← h.1]; exact this

theorem bs_none {store : Store} {a b : Key} {f : Nat}
    (h : scoutfs_btree_since store a b f = none) :
    ∀ r ∈ store, ¬(keyLe a r.key ∧ keyLe r.key b ∧ f ≤ r.seq) := by
  intro r hr hq
  unfold scoutfs_btree_since at h
  cases hm : findMinRec (store.filter (qualb a b f)) with
  | some m => rw [hm] at h; simp at h
  | none =>
    have := findMinRec_none hm
    have hmem : r ∈ store.filter (qualb a b f) := by
      rw [List.mem_filter, qualb_eq_true]; exact ⟨hr, hq⟩
    rw [this] at hmem; simp at hmem

/-! ### Change-since scan loop invariants -/

theorem isl_len (store : Store) (lastK : Key) (floor : Nat) :
    ∀ (s : Nat) (okc : Nat → Bool) (c : Key),
    (inodesSinceLoop store lastK floor okc c s).out.length ≤ s := by
  intro s
  induction s with
  | zero => intro okc c; simp [inodesSinceLoop]
  | succ s ih =>
    intro okc c
    simp only [inodesSinceLoop]
    cases hbs : scoutfs_btree_since store c lastK floor with
    | none => simp
    | some kv =>
      obtain ⟨k, sq⟩ := kv
      by_cases hok : okc 0
      · simp only [hok, if_true, List.length_cons]
        have := ih (fun n => okc (n + 1)) ⟨(k.ino + 1) % U64, k.typ, k.off⟩
        omega
      · simp [hok]

theorem isl_ret (store : Store) (lastK : Key) (floor : Nat) :
    ∀ (s : Nat) (okc : Nat → Bool) (c : Key),
    (inodesSinceLoop store lastK floor okc c s).ret = 0 ∨
      (inodesSinceLoop store lastK floor okc c s).ret = -14 := by
  intro s
  induction s with
  | zero => intro okc c; simp [inodesSinceLoop]
  | succ s ih =>
    intro okc c
    simp only [inodesSinceLoop]
    cases hbs : scoutfs_btree_since store c lastK floor with
    | none => simp
    | some kv =>
      obtain ⟨k, sq⟩ := kv
      by_cases hok : okc 0
      · simp only [hok, if_true]
        exact ih (fun n => okc (n + 1)) ⟨(k.ino + 1) % U64, k.typ, k.off⟩
      · simp [hok]

theorem isl_out_store (store : Store) (lastK : Key) (floor : Nat) :
    ∀ (s : Nat) (okc : Nat → Bool) (c : Key),
    ∀ p ∈ (inodesSinceLoop store lastK floor okc c s).out,
      ∃ r ∈ store, r.key.ino = p.1 ∧ r.seq = p.2 ∧ floor ≤ r.seq ∧
        keyLe r.key lastK := by
  intro s
  induction s with
  | zero => intro okc c p hp; simp [inodesSinceLoop] at hp
  | succ s ih =>
    intro okc c p hp
    simp only [inodesSinceLoop] at hp
    cases hbs : scoutfs_btree_since store c lastK floor with
    | none => rw [hbs] at hp; simp at hp
    | some kv =>
      obtain ⟨k, sq⟩ := kv
      rw [hbs] at hp
      by_cases hok : okc 0
      · simp only [hok, if_true, List.mem_cons] at hp
        rcases hp with hp | hp
        · obtain ⟨⟨r, hr, hrk, hrs⟩, hak, hkb, hfs⟩ := bs_some hbs
          subst hp
          exact ⟨r, hr, by rw [hrk], by rw [hrs], by omega, by rw [hrk]; exact hkb⟩
        · exact ih (fun n => okc (n + 1)) ⟨(k.ino + 1) % U64, k.typ, k.off⟩ p hp
      · simp [hok] at hp

theorem isl_sorted (store : Store) (lastK : Key) (floor : Nat)
    (hwrap : lastK.ino < U64 - 1) :
    ∀ (s : Nat) (okc : Nat → Bool) (c : Key),
    (∀ p ∈ (inodesSinceLoop store lastK floor okc c s).out, c.ino ≤ p.1) ∧
      ((inodesSinceLoop store lastK floor okc c s).out.map Prod.fst).Pairwise (· < ·) := by
  intro s
  induction s with
  | zero => intro okc c; simp [inodesSinceLoop]
  | succ s ih =>
    intro okc c
    simp only [inodesSinceLoop]
    cases hbs : scoutfs_btree_since store c lastK floor with
    | none => simp
    | some kv =>
      obtain ⟨k, sq⟩ := kv
      by_cases hok : okc 0
      · simp only [hok, if_true]
        obtain ⟨hmem, hak, hkb, hfs⟩ := bs_some hbs
        have hck : c.ino ≤ k.ino := keyLe_ino_le hak
        have hkl : k.ino ≤ lastK.ino := keyLe_ino_le hkb
        have hmod : (k.ino + 1) % U64 = k.ino + 1 := by
          apply Nat.mod_eq_of_lt; omega
        obtain ⟨ihlo, ihpw⟩ := ih (fun n => okc (n + 1)) ⟨(k.ino + 1) % U64, k.typ, k.off⟩
        constructor
        · intro p hp
          rcases List.mem_cons.mp hp with hp | hp
          · subst hp; exact hck
          · have := ihlo p hp
            simp only [hmod] at this
            omega
        · simp only [List.map_cons, List.pairwise_cons]
          refine ⟨?_, ihpw⟩
          intro a ha
          obtain ⟨p, hp, hpa⟩ := List.mem_map.mp ha
          have := ihlo p hp
          simp only [hmod] at this
          omega
      · simp [hok]

/-! ### The ideal emission sequence and its relation to the loop -/

theorem sinceEmitF_fuel (store : Store) (typ floor last_ino : Nat) :
    ∀ (f c : Nat), last_ino + 1 - c ≤ f →
    sinceEmitF store typ floor last_ino f c = sinceEmitAll store typ floor last_ino c := by
  intro f
  induction f using Nat.strong_induction_on with
  | _ f ih =>
    intro c hf
    cases f with
    | zero =>
      unfold sinceEmitAll
      have hc : last_ino + 1 - c = 0 := by omega
      rw [hc]
    | succ f =>
      unfold sinceEmitAll
      cases hfc : last_ino + 1 - c with
      | zero =>
        -- cursor beyond the upper bound: both sides are empty
        simp only [sinceEmitF]
        cases hbs : scoutfs_btree_since store ⟨c, typ, 0⟩ ⟨last_ino, typ, 0⟩ floor with
        | none => rfl
        | some kv =>
          obtain ⟨k, sq⟩ := kv
          obtain ⟨_, hak, hkb, _⟩ := bs_some hbs
          have h1 := keyLe_ino_le hak
          have h2 := keyLe_ino_le hkb
          simp only at h1 h2
          omega
      | succ g =>
        simp only [sinceEmitF]
        cases hbs : scoutfs_btree_since store ⟨c, typ, 0⟩ ⟨last_ino, typ, 0⟩ floor with
        | none => rfl
        | some kv =>
          obtain ⟨k, sq⟩ := kv
          obtain ⟨_, hak, hkb, _⟩ := bs_some hbs
          have h1 := keyLe_ino_le hak
          have h2 := keyLe_ino_le hkb
          simp only at h1 h2
          have e1 : sinceEmitF store typ floor last_ino f (k.ino + 1) =
              sinceEmitAll store typ floor last_ino (k.ino + 1) :=
            ih f (by omega) _ (by omega)
          have e2 : sinceEmitF store typ floor last_ino g (k.ino + 1) =
              sinceEmitAll store typ floor last_ino (k.ino + 1) :=
            ih g (by omega) _ (by omega)
          dsimp only
          rw [e1, e2]

theorem sinceEmitAll_eq (store : Store) (typ floor last_ino c : Nat) :
    sinceEmitAll store typ floor last_ino c =
      match scoutfs_btree_since store ⟨c, typ, 0⟩ ⟨last_ino, typ, 0⟩ floor with
      | none => []
      | some (k, sq) => (k.ino, sq) :: sinceEmitAll store typ floor last_ino (k.ino + 1) := by
  cases hbs : scoutfs_btree_since store ⟨c, typ, 0⟩ ⟨last_ino, typ, 0⟩ floor with
  | none =>
    unfold sinceEmitAll
    cases hfc : last_ino + 1 - c with
    | zero => rfl
    | succ g => simp [sinceEmitF, hbs]
  | some kv =>
    obtain ⟨k, sq⟩ := kv
    obtain ⟨_, hak, hkb, _⟩ := bs_some hbs
    have h1 := keyLe_ino_le hak
    have h2 := keyLe_ino_le hkb
    simp only at h1 h2
    conv_lhs => unfold sinceEmitAll
    have hfc : last_ino + 1 - c = (last_ino - c) + 1 := by omega
    rw [hfc]
    simp only [sinceEmitF, hbs]
    rw [sinceEmitF_fuel store typ floor last_ino (last_ino - c) (k.ino + 1) (by omega)]

theorem isl_eq_emit (store : Store) (typ floor last_ino : Nat)
    (hclean : ∀ r ∈ store, r.key.typ = typ ∧ r.key.off = 0)
    (hwrap : last_ino < U64 - 1) :
    ∀ (s c : Nat),
    (inodesSinceLoop store ⟨last_ino, typ, 0⟩ floor (fun _ => true) ⟨c, typ, 0⟩ s).out =
      (sinceEmitAll store typ floor last_ino c).take s := by
  intro s
  induction s with
  | zero => intro c; simp [inodesSinceLoop]
  | succ s ih =>
    intro c
    rw [sinceEmitAll_eq]
    simp only [inodesSinceLoop]
    cases hbs : scoutfs_btree_since store ⟨c, typ, 0⟩ ⟨last_ino, typ, 0⟩ floor with
    | none => simp
    | some kv =>
      obtain ⟨k, sq⟩ := kv
      obtain ⟨⟨r, hr, hrk, _⟩, hak, hkb, _⟩ := bs_some hbs
      have hkt : k.typ = typ := by rw [← hrk]; exact (hclean r hr).1
      have hko : k.off = 0 := by rw [← hrk]; exact (hclean r hr).2
      have hkl : k.ino ≤ last_ino := keyLe_ino_le hkb
      have hmod : (k.ino + 1) % U64 = k.ino + 1 := by
        apply Nat.mod_eq_of_lt; omega
      simp only [if_true, List.take_succ_cons]
      have := ih (k.ino + 1)
      rw [hmod, hkt, hko]
      simp only [List.cons.injEq, true_and]
      exact this

theorem isl_queries_head (store : Store) (lastK : Key) (floor : Nat) :
    ∀ (s : Nat) (okc : Nat → Bool) (c : Key),
    (inodesSinceLoop store lastK floor okc c s).queries.head? = some c ∨
      (inodesSinceLoop store lastK floor okc c s).queries = [] := by
  intro s okc c
  cases s with
  | zero => right; rfl
  | succ s =>
    left
    simp only [inodesSinceLoop]
    cases hbs : scoutfs_btree_since store c lastK floor with
    | none => simp
    | some kv =>
      obtain ⟨k, sq⟩ := kv
      by_cases hok : okc 0
      · simp [hok]
      · simp [hok]

theorem isl_queries_step (store : Store) (typ floor last_ino : Nat)
    (hclean : ∀ r ∈ store, r.key.typ = typ ∧ r.key.off = 0)
    (hwrap : last_ino < U64 - 1) :
    ∀ (s c : Nat) (i : Nat) (p : Nat × Nat) (q : Key),
    (inodesSinceLoop store ⟨last_ino, typ, 0⟩ floor (fun _ => true)
        ⟨c, typ, 0⟩ s).out.get? i = some p →
    (inodesSinceLoop store ⟨last_ino, typ, 0⟩ floor (fun _ => true)
        ⟨c, typ, 0⟩ s).queries.get? (i + 1) = some q →
    q = ⟨p.1 + 1, typ, 0⟩ := by
  intro s
  induction s with
  | zero => intro c i p q h1 h2; simp [inodesSinceLoop] at h1
  | succ s ih =>
    intro c i p q h1 h2
    simp only [inodesSinceLoop] at h1 h2
    cases hbs : scoutfs_btree_since store ⟨c, typ, 0⟩ ⟨last_ino, typ, 0⟩ floor with
    | none => rw [hbs] at h1; simp at h1
    | some kv =>
      obtain ⟨k, sq⟩ := kv
      rw [hbs] at h1 h2
      obtain ⟨⟨r, hr, hrk, _⟩, hak, hkb, _⟩ := bs_some hbs
      have hkt : k.typ = typ := by rw [← hrk]; exact (hclean r hr).1
      have hko : k.off = 0 := by rw [← hrk]; exact (hclean r hr).2
      have hkl : k.ino ≤ last_ino := keyLe_ino_le hkb
      have hmod : (k.ino + 1) % U64 = k.ino + 1 := by
        apply Nat.mod_eq_of_lt; omega
      simp only [if_true] at h1 h2
      cases i with
      | zero =>
        simp only [List.get?_cons_zero, Option.some.injEq] at h1
        simp only [List.get?_cons_succ] at h2
        rcases isl_queries_head store ⟨last_ino, typ, 0⟩ floor s (fun n => true)
          ⟨(k.ino + 1) % U64, k.typ, k.off⟩ with hh | hh
        · have : (inodesSinceLoop store ⟨last_ino, typ, 0⟩ floor (fun n => true)
              ⟨(k.ino + 1) % U64, k.typ, k.off⟩ s).queries.get? 0 =
              some ⟨(k.ino + 1) % U64, k.typ, k.off⟩ := by
            cases hq : (inodesSinceLoop store ⟨last_ino, typ, 0⟩ floor (fun n => true)
                ⟨(k.ino + 1) % U64, k.typ, k.off⟩ s).queries with
            | nil => rw [hq] at hh; simp at hh
            | cons a t => rw [hq] at hh; simp at hh; simp [hh]
          rw [this] at h2
          simp only [Option.some.injEq] at h2
          rw [← h2, ← h1, hmod, hkt, hko]
        · rw [hh] at h2; simp at h2
      | succ i =>
        simp only [List.get?_cons_succ] at h1 h2
        rw [hmod, hkt, hko] at h1 h2
        exact ih (k.ino + 1) i p q h1 h2

theorem emit_complete (store : Store) (typ floor last_ino : Nat)
    (hclean : ∀ r ∈ store, r.key.typ = typ ∧ r.key.off = 0) :
    ∀ (d c : Nat), last_ino + 1 - c ≤ d →
    ∀ r ∈ store, keyLe ⟨c, typ, 0⟩ r.key → keyLe r.key ⟨last_ino, typ, 0⟩ →
      floor ≤ r.seq →
      r.key.ino ∈ (sinceEmitAll store typ floor last_ino c).map Prod.fst := by
  intro d
  induction d using Nat.strong_induction_on with
  | _ d ih =>
    intro c hd r hr h1 h2 h3
    rw [sinceEmitAll_eq]
    cases hbs : scoutfs_btree_since store ⟨c, typ, 0⟩ ⟨last_ino, typ, 0⟩ floor with
    | none => exact absurd ⟨h1, h2, h3⟩ (bs_none hbs r hr)
    | some kv =>
      obtain ⟨k, sq⟩ := kv
      obtain ⟨⟨r0, hr0, hrk, _⟩, hak, hkb, _⟩ := bs_some hbs
      have hkt : k.typ = typ := by rw [← hrk]; exact (hclean r0 hr0).1
      have hko : k.off = 0 := by rw [← hrk]; exact (hclean r0 hr0).2
      have hrt : r.key.typ = typ := (hclean r hr).1
      have hro : r.key.off = 0 := (hclean r hr).2
      have hmin := bs_min hbs r hr h1 h2 h3
      have hkr : k.ino ≤ r.key.ino := keyLe_ino_le hmin
      have hck : c ≤ k.ino := keyLe_ino_le hak
      have hkl : k.ino ≤ last_ino := keyLe_ino_le hkb
      rcases Nat.eq_or_lt_of_le hkr with he | hlt
      · simp [← he]
      · simp only [List.map_cons, List.mem_cons]
        right
        apply ih (last_ino + 1 - (k.ino + 1)) (by omega) (k.ino + 1) (by omega) r hr
        · unfold keyLe; dsimp only; omega
        · exact h2
        · exact h3

theorem emit_drop (store : Store) (typ floor last_ino : Nat) :
    ∀ (n c : Nat) (p : Nat × Nat),
    (sinceEmitAll store typ floor last_ino c).get? n = some p →
    sinceEmitAll store typ floor last_ino (p.1 + 1) =
      (sinceEmitAll store typ floor last_ino c).drop (n + 1) := by
  intro n
  induction n with
  | zero =>
    intro c p h
    rw [sinceEmitAll_eq store typ floor last_ino c] at h ⊢
    cases hbs : scoutfs_btree_since store ⟨c, typ, 0⟩ ⟨last_ino, typ, 0⟩ floor with
    | none => rw [hbs] at h; simp at h
    | some kv =>
      obtain ⟨k, sq⟩ := kv
      rw [hbs] at h
      dsimp only at h ⊢
      simp only [List.get?_cons_zero, Option.some.injEq] at h
      simp [← h]
  | succ n ih =>
    intro c p h
    rw [sinceEmitAll_eq store typ floor last_ino c] at h ⊢
    cases hbs : scoutfs_btree_since store ⟨c, typ, 0⟩ ⟨last_ino, typ, 0⟩ floor with
    | none => rw [hbs] at h; simp at h
    | some kv =>
      obtain ⟨k, sq⟩ := kv
      rw [hbs] at h
      dsimp only at h ⊢
      simp only [List.get?_cons_succ] at h
      simp only [List.drop_succ_cons]
      exact ih (k.ino + 1) p h

/-! ### Claims about the change-since scanner -/

/-- C1: every (primary, sequence) record emitted by a change-since call
comes from a stored record whose stored sequence is at or above the
supplied floor; in particular, for range [10, 20], floor 5 and stored
records (12, seq 7), (15, seq 3), (18, seq 9), a large buffer yields
exactly [(12, 7), (18, 9)], inode 15 excluded. -/
theorem claim_C1 :
    (∀ (store : Store) (copyOk : Nat → Bool) (args : SinceArgs) (typ : Nat),
      ∀ p ∈ (scoutfs_ioc_inodes_since store copyOk args typ).out,
        ∃ r ∈ store, r.key.ino = p.1 ∧ r.seq = p.2 ∧ args.seq ≤ r.seq) ∧
    (scoutfs_ioc_inodes_since
        [⟨⟨12, 1, 0⟩, 7⟩, ⟨⟨15, 1, 0⟩, 3⟩, ⟨⟨18, 1, 0⟩, 9⟩]
        (fun _ => true) ⟨10, 20, 5, 64⟩ 1).out = [(12, 7), (18, 9)] := by
  constructor
  · intro store copyOk args typ p hp
    unfold scoutfs_ioc_inodes_since at hp
    by_cases hv : args.buf_len < ISEQ_SIZE ∨ args.buf_len > INT_MAX
    · rw [if_pos hv] at hp; simp at hp
    · rw [if_neg hv] at hp
      dsimp only at hp
      obtain ⟨r, hr, h1, h2, h3, _⟩ := isl_out_store store
        (scoutfs_set_key args.last_ino typ 0) args.seq (args.buf_len / ISEQ_SIZE)
        copyOk (scoutfs_set_key args.first_ino typ 0) p hp
      exact ⟨r, hr, h1, h2, h3⟩
  · decide

/-- Witness for C1 at the concrete scenario: (12, 7) is emitted and indeed
stems from a stored record with sequence 7 ≥ 5. -/
theorem claim_C1_witness :
    (12, 7) ∈ (scoutfs_ioc_inodes_since
        [⟨⟨12, 1, 0⟩, 7⟩, ⟨⟨15, 1, 0⟩, 3⟩, ⟨⟨18, 1, 0⟩, 9⟩]
        (fun _ => true) ⟨10, 20, 5, 64⟩ 1).out ∧
    ∃ r ∈ ([⟨⟨12, 1, 0⟩, 7⟩, ⟨⟨15, 1, 0⟩, 3⟩, ⟨⟨18, 1, 0⟩, 9⟩] : Store),
      r.key.ino = 12 ∧ r.seq = 7 ∧ 5 ≤ r.seq :=
  ⟨by decide, claim_C1.1 _ (fun _ => true) ⟨10, 20, 5, 64⟩ 1 (12, 7) (by decide)⟩

/-- Counterexample to C2 as stated: with last_ino = 2^64 - 1 the cursor
advance `iseq.ino + 1` wraps to 0 and the single stored record at inode
2^64 - 1 is emitted twice in one call, so the primaries are not strictly
increasing. -/
theorem claim_C2_cex :
    ((scoutfs_ioc_inodes_since [⟨⟨U64 - 1, 1, 0⟩, 9⟩] (fun _ => true)
        ⟨U64 - 1, U64 - 1, 0, 32⟩ 1).out.map Prod.fst) = [U64 - 1, U64 - 1] ∧
      ¬ (U64 - 1 < U64 - 1) := by
  constructor
  · decide
  · omega

/-- C2 (amended): provided the query's last-primary bound is below
2^64 - 1 (so the 64-bit cursor increment cannot wrap), the primaries
emitted within one change-since call are strictly increasing. -/
theorem claim_C2 (store : Store) (copyOk : Nat → Bool) (args : SinceArgs)
    (typ : Nat) (hwrap : args.last_ino < U64 - 1) :
    ((scoutfs_ioc_inodes_since store copyOk args typ).out.map Prod.fst).Pairwise (· < ·) := by
  unfold scoutfs_ioc_inodes_since
  by_cases hv : args.buf_len < ISEQ_SIZE ∨ args.buf_len > INT_MAX
  · rw [if_pos hv]; simp
  · rw [if_neg hv]
    dsimp only
    exact (isl_sorted store (scoutfs_set_key args.last_ino typ 0) args.seq hwrap
      (args.buf_len / ISEQ_SIZE) copyOk (scoutfs_set_key args.first_ino typ 0)).2

/-- Witness for C2 at the concrete scenario of C1. -/
theorem claim_C2_witness :
    (20 : Nat) < U64 - 1 ∧
    ((scoutfs_ioc_inodes_since
        [⟨⟨12, 1, 0⟩, 7⟩, ⟨⟨15, 1, 0⟩, 3⟩, ⟨⟨18, 1, 0⟩, 9⟩]
        (fun _ => true) ⟨10, 20, 5, 64⟩ 1).out.map Prod.fst).Pairwise (· < ·) :=
  ⟨by decide, claim_C2 _ (fun _ => true) ⟨10, 20, 5, 64⟩ 1 (by decide)⟩

/-- Counterexample to C5 as stated: with the write of the second record
failing across the boundary after one record was already written, the
change-since call returns the positive partial byte count 16, not the
transfer-failure error -EFAULT. -/
theorem claim_C5_cex :
    (scoutfs_ioc_inodes_since [⟨⟨12, 1, 0⟩, 7⟩, ⟨⟨15, 1, 0⟩, 3⟩, ⟨⟨18, 1, 0⟩, 9⟩]
        (fun n => n == 0) ⟨10, 20, 5, 64⟩ 1).ret = 16 ∧ ((16 : Int) ≠ -14) := by
  constructor
  · decide
  · decide

/-- C5 (amended): when one or more records were already written, a
change-since call returns the positive byte count of what was written
(and a reverse-attribute call the positive record count), even if a later
boundary write failed; the transfer-failure code is surfaced only when
nothing was written. -/
theorem claim_C5 :
    (∀ (store : Store) (copyOk : Nat → Bool) (args : SinceArgs) (typ : Nat),
      (scoutfs_ioc_inodes_since store copyOk args typ).out ≠ [] →
      (scoutfs_ioc_inodes_since store copyOk args typ).ret =
        ((ISEQ_SIZE * (scoutfs_ioc_inodes_since store copyOk args typ).out.length : Nat) : Int)) ∧
    (∀ (store : Store) (hashFn : List Nat → Nat) (maxXattrLen maskBits : Nat)
        (allocOk strCopyOk : Bool) (copyOk : Nat → Bool) (args : XattrArgs)
        (fn : Bool),
      (scoutfs_ioc_find_xattr store hashFn maxXattrLen maskBits allocOk strCopyOk
          copyOk args fn).out ≠ [] →
      (scoutfs_ioc_find_xattr store hashFn maxXattrLen maskBits allocOk strCopyOk
          copyOk args fn).ret =
        (((scoutfs_ioc_find_xattr store hashFn maxXattrLen maskBits allocOk strCopyOk
          copyOk args fn).out.length : Nat) : Int)) := by
  constructor
  · intro store copyOk args typ hne
    unfold scoutfs_ioc_inodes_since at hne ⊢
    by_cases hv : args.buf_len < ISEQ_SIZE ∨ args.buf_len > INT_MAX
    · rw [if_pos hv] at hne; simp at hne
    · rw [if_neg hv] at hne ⊢
      dsimp only at hne ⊢
      have hemp : ¬((inodesSinceLoop store (scoutfs_set_key args.last_ino typ 0)
          args.seq copyOk (scoutfs_set_key args.first_ino typ 0)
          (args.buf_len / ISEQ_SIZE)).out.isEmpty = true) := by
        rw [List.isEmpty_iff]; exact hne
      rw [if_neg hemp]
  · intro store hashFn maxXattrLen maskBits allocOk strCopyOk copyOk args fn hne
    unfold scoutfs_ioc_find_xattr at hne ⊢
    by_cases h1 : args.str_len > maxXattrLen ∨ args.ino_count > INT_MAX
    · rw [if_pos h1] at hne; simp at hne
    · rw [if_neg h1] at hne ⊢
      by_cases h2 : args.first_ino > args.last_ino
      · rw [if_pos h2] at hne; simp at hne
      · rw [if_neg h2] at hne ⊢
        by_cases h3 : args.ino_count = 0
        · rw [if_pos h3] at hne; simp at hne
        · rw [if_neg h3] at hne ⊢
          by_cases h4 : ¬allocOk
          · rw [if_pos h4] at hne; simp at hne
          · rw [if_neg h4] at hne ⊢
            by_cases h5 : ¬strCopyOk
            · rw [if_pos h5] at hne; simp at hne
            · rw [if_neg h5] at hne ⊢
              dsimp only at hne ⊢
              have hemp : ∀ (l : List Nat), l ≠ [] → ¬(l.isEmpty = true) := by
                intro l hl; rw [List.isEmpty_iff]; exact hl
              rw [if_neg (hemp _ hne)]

/-- Witness for C5: both scanners at inputs where the boundary write fails
after exactly one record was transferred. -/
theorem claim_C5_witness :
    ((scoutfs_ioc_inodes_since [⟨⟨12, 1, 0⟩, 7⟩, ⟨⟨18, 1, 0⟩, 9⟩]
        (fun n => n == 0) ⟨10, 20, 5, 64⟩ 1).out ≠ [] ∧
      (scoutfs_ioc_inodes_since [⟨⟨12, 1, 0⟩, 7⟩, ⟨⟨18, 1, 0⟩, 9⟩]
        (fun n => n == 0) ⟨10, 20, 5, 64⟩ 1).ret =
      ((ISEQ_SIZE * (scoutfs_ioc_inodes_since [⟨⟨12, 1, 0⟩, 7⟩, ⟨⟨18, 1, 0⟩, 9⟩]
        (fun n => n == 0) ⟨10, 20, 5, 64⟩ 1).out.length : Nat) : Int)) ∧
    ((scoutfs_ioc_find_xattr [⟨⟨0, 200, 4⟩, 0⟩, ⟨⟨0, 200, 6⟩, 0⟩] (fun _ => 0)
        100 8 true true (fun n => n == 0) ⟨[1, 2], 2, 1, 9, 5⟩ true).out ≠ [] ∧
      (scoutfs_ioc_find_xattr [⟨⟨0, 200, 4⟩, 0⟩, ⟨⟨0, 200, 6⟩, 0⟩] (fun _ => 0)
        100 8 true true (fun n => n == 0) ⟨[1, 2], 2, 1, 9, 5⟩ true).ret =
      (((scoutfs_ioc_find_xattr [⟨⟨0, 200, 4⟩, 0⟩, ⟨⟨0, 200, 6⟩, 0⟩] (fun _ => 0)
        100 8 true true (fun n => n == 0) ⟨[1, 2], 2, 1, 9, 5⟩ true).out.length : Nat) : Int)) :=
  ⟨⟨by decide, claim_C5.1 _ (fun n => n == 0) ⟨10, 20, 5, 64⟩ 1 (by decide)⟩,
    ⟨by decide, claim_C5.2 _ (fun _ => 0) 100 8 true true (fun n => n == 0)
      ⟨[1, 2], 2, 1, 9, 5⟩ true (by decide)⟩⟩

/-- Counterexample to C6 as stated: a change-since call with an 8-byte
buffer (too small for one 16-byte record) returns the error -EINVAL, not
success with zero results. -/
theorem claim_C6_cex :
    (scoutfs_ioc_inodes_since [] (fun _ => true) ⟨10, 20, 5, 8⟩ 1).ret = -22 ∧
      ((-22 : Int) < 0) := by
  constructor
  · decide
  · decide

/-- C6 (amended): a change-since call whose destination buffer cannot hold
even one result record is rejected up front with the invalid-argument
error -EINVAL (zero results, and never a success return); overflow on the
first record can therefore not occur past validation. -/
theorem claim_C6 (store : Store) (copyOk : Nat → Bool) (args : SinceArgs)
    (typ : Nat) (h : args.buf_len < ISEQ_SIZE) :
    scoutfs_ioc_inodes_since store copyOk args typ = ⟨-22, [], []⟩ := by
  unfold scoutfs_ioc_inodes_since
  rw [if_pos (Or.inl h)]

/-- Witness for C6 at buffer length 8. -/
theorem claim_C6_witness :
    (8 : Nat) < ISEQ_SIZE ∧
    scoutfs_ioc_inodes_since [] (fun _ => true) ⟨10, 20, 5, 8⟩ 1 = ⟨-22, [], []⟩ :=
  ⟨by decide, claim_C6 [] (fun _ => true) ⟨10, 20, 5, 8⟩ 1 (by decide)⟩

/-- C10: for a validated change-since call the bytes written never exceed
the buffer length, and any non-negative return value is exactly the byte
count written, a multiple of the fixed 16-byte record size. -/
theorem claim_C10 (store : Store) (copyOk : Nat → Bool) (args : SinceArgs)
    (typ : Nat) (h1 : ISEQ_SIZE ≤ args.buf_len) (h2 : args.buf_len ≤ INT_MAX) :
    ISEQ_SIZE * (scoutfs_ioc_inodes_since store copyOk args typ).out.length ≤
        args.buf_len ∧
    (0 ≤ (scoutfs_ioc_inodes_since store copyOk args typ).ret →
      (scoutfs_ioc_inodes_since store copyOk args typ).ret =
        ((ISEQ_SIZE * (scoutfs_ioc_inodes_since store copyOk args typ).out.length :
          Nat) : Int)) := by
  have hv : ¬(args.buf_len < ISEQ_SIZE ∨ args.buf_len > INT_MAX) := by omega
  unfold scoutfs_ioc_inodes_since
  rw [if_neg hv]
  dsimp only
  constructor
  · have hlen := isl_len store (scoutfs_set_key args.last_ino typ 0) args.seq
      (args.buf_len / ISEQ_SIZE) copyOk (scoutfs_set_key args.first_ino typ 0)
    have hdm : args.buf_len / ISEQ_SIZE * ISEQ_SIZE ≤ args.buf_len :=
      Nat.div_mul_le_self _ _
    unfold ISEQ_SIZE at hlen hdm ⊢
    omega
  · intro hge
    cases hemp : (inodesSinceLoop store (scoutfs_set_key args.last_ino typ 0) args.seq
        copyOk (scoutfs_set_key args.first_ino typ 0) (args.buf_len / ISEQ_SIZE)).out.isEmpty
    · simp only [hemp, Bool.false_eq_true, if_false]
    · simp only [hemp, if_true] at hge ⊢
      rcases isl_ret store (scoutfs_set_key args.last_ino typ 0) args.seq
          (args.buf_len / ISEQ_SIZE) copyOk (scoutfs_set_key args.first_ino typ 0)
        with hr | hr
      · rw [hr]
        rw [List.isEmpty_iff] at hemp
        simp [hemp]
      · rw [hr] at hge; omega

/-- Witness for C10 at the concrete scenario of C1. -/
theorem claim_C10_witness :
    (ISEQ_SIZE ≤ 64 ∧ (64 : Nat) ≤ INT_MAX) ∧
    (ISEQ_SIZE * (scoutfs_ioc_inodes_since
        [⟨⟨12, 1, 0⟩, 7⟩, ⟨⟨15, 1, 0⟩, 3⟩, ⟨⟨18, 1, 0⟩, 9⟩]
        (fun _ => true) ⟨10, 20, 5, 64⟩ 1).out.length ≤ 64 ∧
      (0 ≤ (scoutfs_ioc_inodes_since
        [⟨⟨12, 1, 0⟩, 7⟩, ⟨⟨15, 1, 0⟩, 3⟩, ⟨⟨18, 1, 0⟩, 9⟩]
        (fun _ => true) ⟨10, 20, 5, 64⟩ 1).ret →
      (scoutfs_ioc_inodes_since
        [⟨⟨12, 1, 0⟩, 7⟩, ⟨⟨15, 1, 0⟩, 3⟩, ⟨⟨18, 1, 0⟩, 9⟩]
        (fun _ => true) ⟨10, 20, 5, 64⟩ 1).ret =
        ((ISEQ_SIZE * (scoutfs_ioc_inodes_since
        [⟨⟨12, 1, 0⟩, 7⟩, ⟨⟨15, 1, 0⟩, 3⟩, ⟨⟨18, 1, 0⟩, 9⟩]
        (fun _ => true) ⟨10, 20, 5, 64⟩ 1).out.length : Nat) : Int))) :=
  ⟨⟨by decide, by decide⟩,
    claim_C10 _ (fun _ => true) ⟨10, 20, 5, 64⟩ 1 (by decide) (by decide)⟩

/-- Counterexample to C3 as stated: line 93 overwrites only the inode
field of the found key, so after the match on key (12, type 1, offset 5)
the next query uses cursor (13, 1, 5), not (13, type, 0); the qualifying
record of the greater primary 13 (at key (13, 1, 0), below that cursor)
is skipped, and only 12 is emitted. -/
theorem claim_C3_cex :
    (scoutfs_ioc_inodes_since [⟨⟨12, 1, 5⟩, 9⟩, ⟨⟨13, 1, 0⟩, 9⟩] (fun _ => true)
        ⟨10, 20, 0, 64⟩ 1).queries.get? 1 = some ⟨13, 1, 5⟩ ∧
    (⟨13, 1, 5⟩ : Key) ≠ ⟨13, 1, 0⟩ ∧
    qualb ⟨10, 1, 0⟩ ⟨20, 1, 0⟩ 0 ⟨⟨13, 1, 0⟩, 9⟩ = true ∧
    (scoutfs_ioc_inodes_since [⟨⟨12, 1, 5⟩, 9⟩, ⟨⟨13, 1, 0⟩, 9⟩] (fun _ => true)
        ⟨10, 20, 0, 64⟩ 1).out.map Prod.fst = [12] := by
  exact ⟨by decide, by decide, by decide, by decide⟩

/-- C3 (amended): when every store record in range carries the query's
type tag with zero secondary offset and the last-primary bound is below
2^64 - 1 (no u64 wrap), then after every emitted match of primary p the
next store query uses exactly the cursor (p + 1, type, 0); consequently
no primary is revisited, and with a sufficiently large buffer no
qualifying record of a greater primary is skipped.  (With mixed type tags
or nonzero offsets the code keeps the found key's type and offset in the
cursor and can skip qualifying records, see the counterexample.) -/
theorem claim_C3 (store : Store) (args : SinceArgs) (typ : Nat)
    (hclean : ∀ r ∈ store, r.key.typ = typ ∧ r.key.off = 0)
    (hwrap : args.last_ino < U64 - 1)
    (hv1 : ISEQ_SIZE ≤ args.buf_len) (hv2 : args.buf_len ≤ INT_MAX) :
    (∀ (i : Nat) (p : Nat × Nat) (q : Key),
      (scoutfs_ioc_inodes_since store (fun _ => true) args typ).out.get? i = some p →
      (scoutfs_ioc_inodes_since store (fun _ => true) args typ).queries.get? (i + 1) =
        some q →
      q = ⟨p.1 + 1, typ, 0⟩) ∧
    ((scoutfs_ioc_inodes_since store (fun _ => true) args typ).out.map Prod.fst).Nodup ∧
    ((sinceEmitAll store typ args.seq args.last_ino args.first_ino).length ≤
        args.buf_len / ISEQ_SIZE →
      ∀ r ∈ store, keyLe ⟨args.first_ino, typ, 0⟩ r.key →
        keyLe r.key ⟨args.last_ino, typ, 0⟩ → args.seq ≤ r.seq →
        r.key.ino ∈
          (scoutfs_ioc_inodes_since store (fun _ => true) args typ).out.map Prod.fst) := by
  have hv : ¬(args.buf_len < ISEQ_SIZE ∨ args.buf_len > INT_MAX) := by omega
  unfold scoutfs_ioc_inodes_since
  rw [if_neg hv]
  dsimp only
  unfold scoutfs_set_key
  refine ⟨?_, ?_, ?_⟩
  · exact isl_queries_step store typ args.seq args.last_ino hclean hwrap
      (args.buf_len / ISEQ_SIZE) args.first_ino
  · exact ((isl_sorted store ⟨args.last_ino, typ, 0⟩ args.seq hwrap
      (args.buf_len / ISEQ_SIZE) (fun _ => true) ⟨args.first_ino, typ, 0⟩).2).imp
      (fun h => Nat.ne_of_lt h)
  · intro hample r hr h1 h2 h3
    rw [isl_eq_emit store typ args.seq args.last_ino hclean hwrap
      (args.buf_len / ISEQ_SIZE) args.first_ino]
    rw [List.take_of_length_le hample]
    exact emit_complete store typ args.seq args.last_ino hclean
      (args.last_ino + 1 - args.first_ino) args.first_ino (le_refl _) r hr h1 h2 h3

/-- Witness for C3: the clean two-record store of the C1 scenario, where
the cursor after the match on 12 is exactly (13, 1, 0) and no primary is
repeated. -/
theorem claim_C3_witness :
    (∀ r ∈ ([⟨⟨12, 1, 0⟩, 7⟩, ⟨⟨18, 1, 0⟩, 9⟩] : Store),
        r.key.typ = 1 ∧ r.key.off = 0) ∧
    ((scoutfs_ioc_inodes_since [⟨⟨12, 1, 0⟩, 7⟩, ⟨⟨18, 1, 0⟩, 9⟩]
        (fun _ => true) ⟨10, 20, 5, 64⟩ 1).out.map Prod.fst).Nodup :=
  ⟨by decide, (claim_C3 [⟨⟨12, 1, 0⟩, 7⟩, ⟨⟨18, 1, 0⟩, 9⟩] ⟨10, 20, 5, 64⟩ 1
    (by decide) (by decide) (by decide) (by decide)).2.1⟩

/-- Counterexample to C9 as stated: on the store holding keys
(12, type 1, offset 5) and (13, type 1, offset 0), seq 9 each, a single
call over [10, 20] with a large buffer emits only (12, 9) — the cursor
(13, 1, 5) skips the second record — while the split query's second call,
starting at first = 13 = one past the last primary returned, finds it; so
the concatenation [(12,9), (13,9)] differs from the unsplit result. -/
theorem claim_C9_cex :
    (scoutfs_ioc_inodes_since [⟨⟨12, 1, 5⟩, 9⟩, ⟨⟨13, 1, 0⟩, 9⟩] (fun _ => true)
        ⟨10, 20, 0, 16⟩ 1).out ++
      (scoutfs_ioc_inodes_since [⟨⟨12, 1, 5⟩, 9⟩, ⟨⟨13, 1, 0⟩, 9⟩] (fun _ => true)
        ⟨13, 20, 0, 64⟩ 1).out = [(12, 9), (13, 9)] ∧
    ((scoutfs_ioc_inodes_since [⟨⟨12, 1, 5⟩, 9⟩, ⟨⟨13, 1, 0⟩, 9⟩] (fun _ => true)
        ⟨10, 20, 0, 16⟩ 1).out.map Prod.fst).getLast? = some 12 ∧
    (scoutfs_ioc_inodes_since [⟨⟨12, 1, 5⟩, 9⟩, ⟨⟨13, 1, 0⟩, 9⟩] (fun _ => true)
        ⟨10, 20, 0, 64⟩ 1).out = [(12, 9)] ∧
    ([(12, 9), (13, 9)] : List (Nat × Nat)) ≠ [(12, 9)] := by
  exact ⟨by decide, by decide, by decide, by decide⟩

/-- C9 (amended): when every store record carries the query's type tag
with zero secondary offset, the last bound is below 2^64 - 1, and buffers
are validated, then splitting a change-since query — the second call
starting one past the last primary p returned by the first, with buffers
of the second and of the unsplit call large enough to exhaust the range —
yields as the concatenation exactly the unsplit call's result. -/
theorem claim_C9 (store : Store) (typ floor first last L1 L2 LB : Nat)
    (hclean : ∀ r ∈ store, r.key.typ = typ ∧ r.key.off = 0)
    (hwrap : last < U64 - 1)
    (h11 : ISEQ_SIZE ≤ L1) (h12 : L1 ≤ INT_MAX)
    (h21 : ISEQ_SIZE ≤ L2) (h22 : L2 ≤ INT_MAX)
    (hB1 : ISEQ_SIZE ≤ LB) (hB2 : LB ≤ INT_MAX)
    (p : Nat)
    (hp : ((scoutfs_ioc_inodes_since store (fun _ => true)
        ⟨first, last, floor, L1⟩ typ).out.map Prod.fst).getLast? = some p)
    (hample2 : (sinceEmitAll store typ floor last (p + 1)).length ≤ L2 / ISEQ_SIZE)
    (hampleB : (sinceEmitAll store typ floor last first).length ≤ LB / ISEQ_SIZE) :
    (scoutfs_ioc_inodes_since store (fun _ => true) ⟨first, last, floor, L1⟩ typ).out ++
      (scoutfs_ioc_inodes_since store (fun _ => true) ⟨p + 1, last, floor, L2⟩ typ).out =
      (scoutfs_ioc_inodes_since store (fun _ => true) ⟨first, last, floor, LB⟩ typ).out := by
  have e1 : (scoutfs_ioc_inodes_since store (fun _ => true)
      ⟨first, last, floor, L1⟩ typ).out =
      (sinceEmitAll store typ floor last first).take (L1 / ISEQ_SIZE) := by
    unfold scoutfs_ioc_inodes_since
    rw [if_neg (by dsimp only; omega : ¬((⟨first, last, floor, L1⟩ : SinceArgs).buf_len <
      ISEQ_SIZE ∨ (⟨first, last, floor, L1⟩ : SinceArgs).buf_len > INT_MAX))]
    dsimp only
    unfold scoutfs_set_key
    exact isl_eq_emit store typ floor last hclean hwrap (L1 / ISEQ_SIZE) first
  have e2 : (scoutfs_ioc_inodes_since store (fun _ => true)
      ⟨p + 1, last, floor, L2⟩ typ).out =
      (sinceEmitAll store typ floor last (p + 1)).take (L2 / ISEQ_SIZE) := by
    unfold scoutfs_ioc_inodes_since
    rw [if_neg (by dsimp only; omega : ¬((⟨p + 1, last, floor, L2⟩ : SinceArgs).buf_len <
      ISEQ_SIZE ∨ (⟨p + 1, last, floor, L2⟩ : SinceArgs).buf_len > INT_MAX))]
    dsimp only
    unfold scoutfs_set_key
    exact isl_eq_emit store typ floor last hclean hwrap (L2 / ISEQ_SIZE) (p + 1)
  have eB : (scoutfs_ioc_inodes_since store (fun _ => true)
      ⟨first, last, floor, LB⟩ typ).out =
      (sinceEmitAll store typ floor last first).take (LB / ISEQ_SIZE) := by
    unfold scoutfs_ioc_inodes_since
    rw [if_neg (by dsimp only; omega : ¬((⟨first, last, floor, LB⟩ : SinceArgs).buf_len <
      ISEQ_SIZE ∨ (⟨first, last, floor, LB⟩ : SinceArgs).buf_len > INT_MAX))]
    dsimp only
    unfold scoutfs_set_key
    exact isl_eq_emit store typ floor last hclean hwrap (LB / ISEQ_SIZE) first
  rw [e1, e2, eB, List.take_of_length_le hampleB]
  rw [e1, List.getLast?_map] at hp
  obtain ⟨pp, hpp, hfst⟩ := Option.map_eq_some'.mp hp
  rw [List.getLast?_eq_get?] at hpp
  obtain ⟨hplt, _⟩ := List.get?_eq_some.mp hpp
  have hlen1 : ((sinceEmitAll store typ floor last first).take (L1 / ISEQ_SIZE)).length =
      min (L1 / ISEQ_SIZE) (sinceEmitAll store typ floor last first).length :=
    List.length_take _ _
  have hlt2 : ((sinceEmitAll store typ floor last first).take (L1 / ISEQ_SIZE)).length - 1 <
      L1 / ISEQ_SIZE := by
    rw [hlen1] at hplt ⊢
    omega
  have hget : (sinceEmitAll store typ floor last first).get?
      (((sinceEmitAll store typ floor last first).take (L1 / ISEQ_SIZE)).length - 1) =
      some pp := by
    rw [← List.get?_take hlt2]
    exact hpp
  have hdrop := emit_drop store typ floor last
    (((sinceEmitAll store typ floor last first).take (L1 / ISEQ_SIZE)).length - 1)
    first pp hget
  rw [hfst] at hdrop
  have hmin1 : ((sinceEmitAll store typ floor last first).take (L1 / ISEQ_SIZE)).length - 1 + 1 =
      ((sinceEmitAll store typ floor last first).take (L1 / ISEQ_SIZE)).length := by
    omega
  rw [hmin1] at hdrop
  rw [hdrop] at hample2 ⊢
  rw [List.take_of_length_le hample2]
  rw [hlen1]
  rcases Nat.le_total (L1 / ISEQ_SIZE) (sinceEmitAll store typ floor last first).length
    with hle | hle
  · have hm : min (L1 / ISEQ_SIZE) (sinceEmitAll store typ floor last first).length =
        L1 / ISEQ_SIZE := by omega
    rw [hm]
    exact List.take_append_drop _ _
  · have hm : min (L1 / ISEQ_SIZE) (sinceEmitAll store typ floor last first).length =
        (sinceEmitAll store typ floor last first).length := by omega
    rw [hm, List.take_of_length_le hle, List.drop_length, List.append_nil]

/-- Witness for C9: store records (12, seq 7) and (18, seq 9) over
[10, 20] with floor 5; the first call (one-record buffer) returns (12, 7),
the second from 13 returns (18, 9), and together they equal the unsplit
result. -/
theorem claim_C9_witness :
    ((scoutfs_ioc_inodes_since [⟨⟨12, 1, 0⟩, 7⟩, ⟨⟨18, 1, 0⟩, 9⟩]
        (fun _ => true) ⟨10, 20, 5, 16⟩ 1).out.map Prod.fst).getLast? = some 12 ∧
    (scoutfs_ioc_inodes_since [⟨⟨12, 1, 0⟩, 7⟩, ⟨⟨18, 1, 0⟩, 9⟩]
        (fun _ => true) ⟨10, 20, 5, 16⟩ 1).out ++
      (scoutfs_ioc_inodes_since [⟨⟨12, 1, 0⟩, 7⟩, ⟨⟨18, 1, 0⟩, 9⟩]
        (fun _ => true) ⟨13, 20, 5, 64⟩ 1).out =
      (scoutfs_ioc_inodes_since [⟨⟨12, 1, 0⟩, 7⟩, ⟨⟨18, 1, 0⟩, 9⟩]
        (fun _ => true) ⟨10, 20, 5, 64⟩ 1).out :=
  ⟨by decide, claim_C9 [⟨⟨12, 1, 0⟩, 7⟩, ⟨⟨18, 1, 0⟩, 9⟩] 1 5 10 20 16 64 64
    (by decide) (by decide) (by decide) (by decide) (by decide) (by decide)
    (by decide) (by decide) 12 (by decide) (by decide) (by decide)⟩

/-! ### Path serialization lemmas -/

theorem writeComps_ok : ∀ (p : List (List Nat)) (buf : List Nat) (len : Int),
    ((joinSep p).length : Int) ≤ len →
    writeComps p buf len = (buf ++ joinSep p, len - (joinSep p).length, []) := by
  intro p
  induction p with
  | nil => intro buf len h; simp [writeComps, joinSep]
  | cons c rest ih =>
    intro buf len h
    cases rest with
    | nil =>
      simp only [joinSep] at h ⊢
      simp only [writeComps, copy_to_ptr]
      rw [if_neg (by omega : ¬((c.length : Int) > len))]
      dsimp only
      rw [if_neg (by omega : ¬(len - (c.length : Int) < 0))]
    | cons r1 rs =>
      have hj : joinSep (c :: r1 :: rs) = c ++ SLASH :: joinSep (r1 :: rs) := rfl
      have harith : (c.length : Int) + 1 + ((joinSep (r1 :: rs)).length : Int) ≤ len := by
        rw [hj] at h
        simp only [List.length_append, List.length_cons] at h
        push_cast at h
        omega
      simp only [writeComps, copy_to_ptr]
      rw [if_neg (by omega : ¬((c.length : Int) > len))]
      dsimp only
      rw [if_neg (by omega : ¬(len - (c.length : Int) < 0))]
      rw [if_neg (by simp only [List.length_singleton, List.length_cons, List.length_nil]; push_cast; omega :
        ¬((([SLASH] : List Nat).length : Int) > len - (c.length : Int)))]
      dsimp only
      rw [if_neg (by simp only [List.length_singleton, List.length_cons, List.length_nil]; push_cast; omega :
        ¬(len - (c.length : Int) - (([SLASH] : List Nat).length : Int) < 0))]
      rw [ih (buf ++ c ++ [SLASH]) (len - c.length - ([SLASH] : List Nat).length)
        (by simp only [List.length_singleton, List.length_cons, List.length_nil]; push_cast; omega)]
      rw [hj]
      simp only [Prod.mk.injEq]
      refine ⟨by simp, ?_, trivial⟩
      simp only [List.length_singleton, List.length_append, List.length_cons, List.length_nil]
      push_cast
      omega

theorem writeComps_fail : ∀ (p : List (List Nat)) (buf : List Nat) (len : Int),
    0 ≤ len → len < ((joinSep p).length : Int) →
    (writeComps p buf len).2.1 = -75 := by
  intro p
  induction p with
  | nil => intro buf len h0 h; simp [joinSep] at h; omega
  | cons c rest ih =>
    intro buf len h0 h
    cases rest with
    | nil =>
      simp only [joinSep] at h
      simp only [writeComps, copy_to_ptr]
      rw [if_pos (by omega : (c.length : Int) > len)]
      dsimp only
      rw [if_pos (by omega : (-75 : Int) < 0)]
    | cons r1 rs =>
      have hj : joinSep (c :: r1 :: rs) = c ++ SLASH :: joinSep (r1 :: rs) := rfl
      have harith : len < (c.length : Int) + 1 + ((joinSep (r1 :: rs)).length : Int) := by
        rw [hj] at h
        simp only [List.length_append, List.length_cons] at h
        push_cast at h
        omega
      simp only [writeComps, copy_to_ptr]
      by_cases hc : (c.length : Int) > len
      · rw [if_pos hc]
        dsimp only
        rw [if_pos (by omega : (-75 : Int) < 0)]
      · rw [if_neg hc]
        dsimp only
        rw [if_neg (by omega : ¬(len - (c.length : Int) < 0))]
        by_cases hs : (([SLASH] : List Nat).length : Int) > len - (c.length : Int)
        · rw [if_pos hs]
          dsimp only
          rw [if_pos (by omega : (-75 : Int) < 0)]
        · simp only [List.length_singleton, List.length_cons, List.length_nil] at hs
          push_cast at hs
          rw [if_neg (by simp only [List.length_singleton, List.length_cons, List.length_nil]; push_cast; omega :
            ¬((([SLASH] : List Nat).length : Int) > len - (c.length : Int)))]
          dsimp only
          rw [if_neg (by simp only [List.length_singleton, List.length_cons, List.length_nil]; push_cast; omega :
            ¬(len - (c.length : Int) - (([SLASH] : List Nat).length : Int) < 0))]
          apply ih
          · simp only [List.length_singleton, List.length_cons, List.length_nil]; push_cast; omega
          · simp only [List.length_singleton, List.length_cons, List.length_nil]; push_cast; omega

theorem pathsLoop_ok : ∀ (ps : List (List (List Nat))) (buf : List Nat) (len : Int),
    (((ps.map (fun p => joinSep p ++ [NUL])).flatten).length : Int) ≤ len →
    pathsLoop ps buf len =
      (buf ++ (ps.map (fun p => joinSep p ++ [NUL])).flatten,
        len - ((ps.map (fun p => joinSep p ++ [NUL])).flatten).length, []) := by
  intro ps
  induction ps with
  | nil => intro buf len h; simp [pathsLoop]
  | cons p rest ih =>
    intro buf len h
    have hb : ((p :: rest).map (fun q => joinSep q ++ [NUL])).flatten =
        (joinSep p ++ [NUL]) ++ (rest.map (fun q => joinSep q ++ [NUL])).flatten := by
      simp
    have harith : ((joinSep p).length : Int) + 1 +
        ((((rest.map (fun q => joinSep q ++ [NUL])).flatten).length : Int)) ≤ len := by
      rw [hb] at h
      simp only [List.length_append, List.length_cons, List.length_singleton, List.length_nil] at h
      push_cast at h
      omega
    simp only [pathsLoop]
    rw [writeComps_ok p buf len (by omega)]
    dsimp only
    rw [if_neg (by omega : ¬(len - ((joinSep p).length : Int) < 0))]
    simp only [copy_to_ptr]
    rw [if_neg (by simp only [List.length_singleton, List.length_cons, List.length_nil]; push_cast; omega :
      ¬((([NUL] : List Nat).length : Int) > len - ((joinSep p).length : Int)))]
    dsimp only
    rw [if_neg (by simp only [List.length_singleton, List.length_cons, List.length_nil]; push_cast; omega :
      ¬(len - ((joinSep p).length : Int) - (([NUL] : List Nat).length : Int) < 0))]
    rw [ih (buf ++ joinSep p ++ [NUL])
      (len - ((joinSep p).length : Int) - (([NUL] : List Nat).length : Int))
      (by simp only [List.length_singleton, List.length_cons, List.length_nil]; push_cast; omega)]
    rw [hb]
    simp only [Prod.mk.injEq]
    refine ⟨by simp, ?_, trivial⟩
    simp only [List.length_singleton, List.length_append, List.length_cons, List.length_nil]
    push_cast
    omega

theorem pathsLoop_fail : ∀ (ps : List (List (List Nat))) (buf : List Nat) (len : Int),
    0 ≤ len → len < (((ps.map (fun p => joinSep p ++ [NUL])).flatten).length : Int) →
    (pathsLoop ps buf len).2.1 = -75 := by
  intro ps
  induction ps with
  | nil => intro buf len h0 h; simp at h; omega
  | cons p rest ih =>
    intro buf len h0 h
    have hb : ((p :: rest).map (fun q => joinSep q ++ [NUL])).flatten =
        (joinSep p ++ [NUL]) ++ (rest.map (fun q => joinSep q ++ [NUL])).flatten := by
      simp
    have harith : len < ((joinSep p).length : Int) + 1 +
        ((((rest.map (fun q => joinSep q ++ [NUL])).flatten).length : Int)) := by
      rw [hb] at h
      simp only [List.length_append, List.length_cons, List.length_singleton, List.length_nil] at h
      push_cast at h
      omega
    simp only [pathsLoop]
    by_cases hp : len < ((joinSep p).length : Int)
    · have hf := writeComps_fail p buf len h0 hp
      rw [if_pos (by rw [hf]; omega : (writeComps p buf len).2.1 < 0)]
      exact hf
    · rw [writeComps_ok p buf len (by omega)]
      dsimp only
      rw [if_neg (by omega : ¬(len - ((joinSep p).length : Int) < 0))]
      simp only [copy_to_ptr]
      by_cases hn : (([NUL] : List Nat).length : Int) > len - ((joinSep p).length : Int)
      · rw [if_pos hn]
        dsimp only
        rw [if_pos (by omega : (-75 : Int) < 0)]
      · simp only [List.length_singleton, List.length_cons, List.length_nil] at hn
        push_cast at hn
        rw [if_neg (by simp only [List.length_singleton, List.length_cons, List.length_nil]; push_cast; omega :
          ¬((([NUL] : List Nat).length : Int) > len - ((joinSep p).length : Int)))]
        dsimp only
        rw [if_neg (by simp only [List.length_singleton, List.length_cons, List.length_nil]; push_cast; omega :
          ¬(len - ((joinSep p).length : Int) - (([NUL] : List Nat).length : Int) < 0))]
        apply ih
        · simp only [List.length_singleton, List.length_cons, List.length_nil]; push_cast; omega
        · simp only [List.length_singleton, List.length_cons, List.length_nil]; push_cast; omega

/-! ### Claims about path reconstruction -/

theorem inode_paths_split (paths : List (List (List Nat))) (buf_len : Nat)
    (B : List Nat) (hB : (paths.map (fun p => joinSep p ++ [NUL])).flatten = B)
    (hint : buf_len ≤ INT_MAX) :
    (B.length + 1 ≤ buf_len →
      scoutfs_ioc_inode_paths paths true buf_len = ⟨0, B ++ [NUL], []⟩) ∧
    (buf_len ≤ B.length →
      (scoutfs_ioc_inode_paths paths true buf_len).ret = -75 ∧
      (scoutfs_ioc_inode_paths paths true buf_len).leaked = []) := by
  constructor
  · intro hfit
    unfold scoutfs_ioc_inode_paths
    rw [if_neg (by simp : ¬(¬true = true))]
    rw [if_neg (by omega : ¬(buf_len > INT_MAX))]
    have hbody : (((paths.map (fun p => joinSep p ++ [NUL])).flatten).length : Int) ≤
        (buf_len : Int) := by
      rw [hB]
      exact_mod_cast (by omega : B.length ≤ buf_len)
    rw [pathsLoop_ok paths [] (buf_len : Int) hbody]
    rw [hB]
    dsimp only
    have hg1 : ¬((buf_len : Int) - (B.length : Int) < 0) := by
      push_cast
      omega
    rw [if_neg hg1]
    simp only [copy_to_ptr]
    have hg2 : ¬((([NUL] : List Nat).length : Int) >
        (buf_len : Int) - (B.length : Int)) := by
      simp only [List.length_singleton, List.length_cons, List.length_nil]
      push_cast
      omega
    rw [if_neg hg2]
    dsimp only
    have hg3 : ¬((buf_len : Int) - (B.length : Int) -
        (([NUL] : List Nat).length : Int) < 0) := by
      simp only [List.length_singleton, List.length_cons, List.length_nil]
      push_cast
      omega
    rw [if_neg hg3]
    unfold scoutfs_dir_free_path
    simp
  · intro hsmall
    unfold scoutfs_ioc_inode_paths
    rw [if_neg (by simp : ¬(¬true = true))]
    rw [if_neg (by omega : ¬(buf_len > INT_MAX))]
    by_cases hb : (buf_len : Int) < (B.length : Int)
    · have hb2 : (buf_len : Int) <
          (((paths.map (fun p => joinSep p ++ [NUL])).flatten).length : Int) := by
        rw [hB]; exact hb
      have hf := pathsLoop_fail paths [] (buf_len : Int) (by positivity) hb2
      rw [if_pos (by rw [hf]; omega : (pathsLoop paths [] (buf_len : Int)).2.1 < 0)]
      unfold scoutfs_dir_free_path
      exact ⟨hf, rfl⟩
    · have heq : (buf_len : Int) = (B.length : Int) := by
        push_cast at hb ⊢
        omega
      have hbody : (((paths.map (fun p => joinSep p ++ [NUL])).flatten).length : Int) ≤
          (buf_len : Int) := by
        rw [hB]
        omega
      rw [pathsLoop_ok paths [] (buf_len : Int) hbody]
      rw [hB]
      dsimp only
      have hg1 : ¬((buf_len : Int) - (B.length : Int) < 0) := by omega
      rw [if_neg hg1]
      simp only [copy_to_ptr]
      have hg2 : (([NUL] : List Nat).length : Int) >
          (buf_len : Int) - (B.length : Int) := by
        simp only [List.length_singleton, List.length_cons, List.length_nil]
        omega
      rw [if_pos hg2]
      dsimp only
      rw [if_pos (by omega : (-75 : Int) < 0)]
      unfold scoutfs_dir_free_path
      exact ⟨rfl, rfl⟩

/-- C4: with the capability held and a buffer large enough, a
path-reconstruction call succeeds (returns 0) and writes exactly the
paths' components joined by single separators, one terminator after each
path, and one additional empty terminator at the end; with no paths, only
the single empty terminator. -/
theorem claim_C4 (paths : List (List (List Nat))) (buf_len : Nat)
    (hint : buf_len ≤ INT_MAX) (hfit : (serializePaths paths).length ≤ buf_len) :
    scoutfs_ioc_inode_paths paths true buf_len = ⟨0, serializePaths paths, []⟩ := by
  have hs : serializePaths paths =
      (paths.map (fun p => joinSep p ++ [NUL])).flatten ++ [NUL] := rfl
  have hlen : (serializePaths paths).length =
      ((paths.map (fun p => joinSep p ++ [NUL])).flatten).length + 1 := by
    rw [hs, List.length_append, List.length_singleton]
  have := (inode_paths_split paths buf_len
    ((paths.map (fun p => joinSep p ++ [NUL])).flatten) rfl hint).1 (by omega)
  rw [this, hs]

/-- Witness for C4: two hard links a/b/c and a/d/c yield the double-
terminated byte stream, and an inode with no paths yields only the empty
terminator. -/
theorem claim_C4_witness :
    ((serializePaths [[[97], [98], [99]], [[97], [100], [99]]]).length ≤ 20 ∧
      scoutfs_ioc_inode_paths [[[97], [98], [99]], [[97], [100], [99]]] true 20 =
        ⟨0, serializePaths [[[97], [98], [99]], [[97], [100], [99]]], []⟩) ∧
    scoutfs_ioc_inode_paths [] true 20 = ⟨0, serializePaths [], []⟩ :=
  ⟨⟨by decide, claim_C4 [[[97], [98], [99]], [[97], [100], [99]]] 20
      (by decide) (by decide)⟩,
    claim_C4 [] 20 (by decide) (by decide)⟩

/-- C7: when the buffer cannot hold the full serialized path set (the
space runs out mid-path or at a terminator), the whole call aborts with
the distinct buffer-too-small error -EOVERFLOW — never a partial-result
success — and no path-component node remains held after the final
release. -/
theorem claim_C7 (paths : List (List (List Nat))) (buf_len : Nat)
    (hint : buf_len ≤ INT_MAX) (hsmall : buf_len < (serializePaths paths).length) :
    (scoutfs_ioc_inode_paths paths true buf_len).ret = -75 ∧
    (scoutfs_ioc_inode_paths paths true buf_len).leaked = [] := by
  have hs : serializePaths paths =
      (paths.map (fun p => joinSep p ++ [NUL])).flatten ++ [NUL] := rfl
  have hlen : (serializePaths paths).length =
      ((paths.map (fun p => joinSep p ++ [NUL])).flatten).length + 1 := by
    rw [hs, List.length_append, List.length_singleton]
  exact (inode_paths_split paths buf_len
    ((paths.map (fun p => joinSep p ++ [NUL])).flatten) rfl hint).2 (by omega)

/-- Witness for C7: the two paths of the C4 scenario with a 5-byte
buffer abort with -EOVERFLOW and leak nothing. -/
theorem claim_C7_witness :
    ((5 : Nat) < (serializePaths [[[97], [98], [99]], [[97], [100], [99]]]).length) ∧
    (scoutfs_ioc_inode_paths [[[97], [98], [99]], [[97], [100], [99]]] true 5).ret = -75 ∧
    (scoutfs_ioc_inode_paths [[[97], [98], [99]], [[97], [100], [99]]] true 5).leaked = [] :=
  ⟨by decide, claim_C7 [[[97], [98], [99]], [[97], [100], [99]]] 5 (by decide) (by decide)⟩

/-! ### Claims about the reverse-attribute scanner -/

/-- C8: a reverse-attribute request with first_inode > last_inode, an
oversize search string, or an oversize result count is rejected with the
input-validation error -EINVAL before any store access (the result is the
same for every store, with nothing written); a request for zero results
is valid and returns immediately with zero results. -/
theorem claim_C8 :
    (∀ (store : Store) (hashFn : List Nat → Nat) (maxXattrLen maskBits : Nat)
        (allocOk strCopyOk : Bool) (copyOk : Nat → Bool) (args : XattrArgs) (fn : Bool),
      args.str_len > maxXattrLen →
      scoutfs_ioc_find_xattr store hashFn maxXattrLen maskBits allocOk strCopyOk
        copyOk args fn = ⟨-22, []⟩) ∧
    (∀ (store : Store) (hashFn : List Nat → Nat) (maxXattrLen maskBits : Nat)
        (allocOk strCopyOk : Bool) (copyOk : Nat → Bool) (args : XattrArgs) (fn : Bool),
      args.ino_count > INT_MAX →
      scoutfs_ioc_find_xattr store hashFn maxXattrLen maskBits allocOk strCopyOk
        copyOk args fn = ⟨-22, []⟩) ∧
    (∀ (store : Store) (hashFn : List Nat → Nat) (maxXattrLen maskBits : Nat)
        (allocOk strCopyOk : Bool) (copyOk : Nat → Bool) (args : XattrArgs) (fn : Bool),
      args.first_ino > args.last_ino →
      scoutfs_ioc_find_xattr store hashFn maxXattrLen maskBits allocOk strCopyOk
        copyOk args fn = ⟨-22, []⟩) ∧
    (∀ (store : Store) (hashFn : List Nat → Nat) (maxXattrLen maskBits : Nat)
        (allocOk strCopyOk : Bool) (copyOk : Nat → Bool) (args : XattrArgs) (fn : Bool),
      args.str_len ≤ maxXattrLen → args.ino_count ≤ INT_MAX →
      args.first_ino ≤ args.last_ino → args.ino_count = 0 →
      scoutfs_ioc_find_xattr store hashFn maxXattrLen maskBits allocOk strCopyOk
        copyOk args fn = ⟨0, []⟩) := by
  refine ⟨?_, ?_, ?_, ?_⟩
  · intro store hashFn maxXattrLen maskBits allocOk strCopyOk copyOk args fn h
    unfold scoutfs_ioc_find_xattr
    rw [if_pos (Or.inl h)]
  · intro store hashFn maxXattrLen maskBits allocOk strCopyOk copyOk args fn h
    unfold scoutfs_ioc_find_xattr
    rw [if_pos (Or.inr h)]
  · intro store hashFn maxXattrLen maskBits allocOk strCopyOk copyOk args fn h
    unfold scoutfs_ioc_find_xattr
    by_cases h1 : args.str_len > maxXattrLen ∨ args.ino_count > INT_MAX
    · rw [if_pos h1]
    · rw [if_neg h1, if_pos h]
  · intro store hashFn maxXattrLen maskBits allocOk strCopyOk copyOk args fn h1 h2 h3 h4
    unfold scoutfs_ioc_find_xattr
    rw [if_neg (by omega : ¬(args.str_len > maxXattrLen ∨ args.ino_count > INT_MAX))]
    rw [if_neg (by omega : ¬(args.first_ino > args.last_ino))]
    rw [if_pos h4]

/-- Witness for C8: the four validation outcomes at concrete inputs, each
evaluated against a nonempty store to exhibit store-independence. -/
theorem claim_C8_witness :
    ((200 : Nat) > 100 ∧
      scoutfs_ioc_find_xattr [⟨⟨0, 200, 4⟩, 9⟩] (fun _ => 0) 100 8 true true
        (fun _ => true) ⟨[1, 2], 200, 1, 5, 3⟩ true = ⟨-22, []⟩) ∧
    (((INT_MAX + 1 : Nat) > INT_MAX) ∧
      scoutfs_ioc_find_xattr [⟨⟨0, 200, 4⟩, 9⟩] (fun _ => 0) 100 8 true true
        (fun _ => true) ⟨[1, 2], 2, 1, 5, INT_MAX + 1⟩ true = ⟨-22, []⟩) ∧
    ((7 : Nat) > 5 ∧
      scoutfs_ioc_find_xattr [⟨⟨0, 200, 4⟩, 9⟩] (fun _ => 0) 100 8 true true
        (fun _ => true) ⟨[1, 2], 2, 7, 5, 3⟩ true = ⟨-22, []⟩) ∧
    scoutfs_ioc_find_xattr [⟨⟨0, 200, 4⟩, 9⟩] (fun _ => 0) 100 8 true true
        (fun _ => true) ⟨[1, 2], 2, 1, 5, 0⟩ true = ⟨0, []⟩ :=
  ⟨⟨by decide, claim_C8.1 _ (fun _ => 0) 100 8 true true (fun _ => true)
      ⟨[1, 2], 200, 1, 5, 3⟩ true (by decide)⟩,
    ⟨by decide, claim_C8.2.1 _ (fun _ => 0) 100 8 true true (fun _ => true)
      ⟨[1, 2], 2, 1, 5, INT_MAX + 1⟩ true (by decide)⟩,
    ⟨by decide, claim_C8.2.2.1 _ (fun _ => 0) 100 8 true true (fun _ => true)
      ⟨[1, 2], 2, 7, 5, 3⟩ true (by decide)⟩,
    claim_C8.2.2.2 _ (fun _ => 0) 100 8 true true (fun _ => true)
      ⟨[1, 2], 2, 1, 5, 0⟩ true (by decide) (by decide) (by decide) (by decide)⟩

end Scoutfs
